import Mathlib

/-!
Verification of the fixed-depth, append-only, incrementally-hashed binary
Merkle tree implemented in `src/main.rs` (struct `MerkleTree` with operations
`new`, `add_data`, `generate_proof`, `verify`).

Embedding conventions:
* The digest function `calculate_hash : String -> u64` is a standard-library
  collaborator (`DefaultHasher`); per the design it is an abstract, injected,
  deterministic pure function, so the whole development is parametric over
  `H : String → Nat`.  Rust's `format!("{}{}", a, b)` on two `u64` digests is
  `toString a ++ toString b` (decimal rendering, then string concatenation).
* `Vec<Vec<Node>>` becomes `List (List Nat)` (a `Node` is just its `hash`
  field); `Vec<Leaf>` becomes `List String` (a `Leaf` is just its `data`
  field).  In-place `vec[i] = x` becomes `List.set`, and reads become `getD`;
  every read/write performed by the code on a reachable tree is proved (or
  evident from the construction) to be in bounds, so the `getD` defaults are
  never consulted there.
* `verify` indexes into the caller-supplied proof vector, which genuinely can
  be out of bounds (Rust panics).  It is therefore modelled as returning
  `Option Bool`: `none` models an index-out-of-bounds panic, `some b` a normal
  boolean return.  The `println!` in `verify` is an I/O side effect with no
  bearing on state or result and is not modelled.
-/

/-- Rust `calculate_hash(&format!("{}{}", a, b))`: hash of the decimal
renderings of the two child digests, concatenated. -/
def combine (H : String → Nat) (a b : Nat) : Nat :=
  H (toString a ++ toString b)

/-- The `MerkleTree` struct of `src/main.rs`:
`depth`, `root_hash`, `data : Vec<Leaf>`, `tree : Vec<Vec<Node>>`, `index`. -/
structure MerkleTree where
  depth : Nat
  root_hash : Nat
  data : List String
  tree : List (List Nat)
  index : Nat
deriving Repr, DecidableEq

/-- Read `tree[d][i]`. -/
def nodeAt (tree : List (List Nat)) (d i : Nat) : Nat :=
  (tree.getD d []).getD i 0

/-- Write `tree[d][i] = v` (in range on every reachable access). -/
def setNode (tree : List (List Nat)) (d i : Nat) (v : Nat) : List (List Nat) :=
  tree.set d ((tree.getD d []).set i v)

/-- One level of the bottom-up construction loop in `MerkleTree::new`:
`tree[d]` has `2^d` entries, entry `i` being
`calculate_hash(&format!("{}{}", tree[d+1][2i].hash, tree[d+1][2i+1].hash))`. -/
def parentLevel (H : String → Nat) (child : List Nat) (d : Nat) : List Nat :=
  (List.range (2 ^ d)).map fun i =>
    combine H (child.getD (2 * i) 0) (child.getD (2 * i + 1) 0)

/-- Level of the freshly constructed tree at height `h` above the leaves
(so level index `d = depth - h`).  Height `0` is the leaf level, filled with
`calculate_hash(&String::from(""))`; each higher level is built by
`parentLevel`, mirroring the `for d in (0..depth).rev()` loop, which computes
`tree[d]` from the already-final `tree[d+1]`. -/
def initLevel (H : String → Nat) (depth : Nat) : Nat → List Nat
  | 0 => List.replicate (2 ^ depth) (H "")
  | h + 1 => parentLevel H (initLevel H depth h) (depth - (h + 1))

/-- `MerkleTree::new(depth, root_hash)`: `data` sized to capacity with default
(empty-string) leaves, leaf level initialised with the empty-string hash, all
interior levels built bottom-up, `index = 0`, `root_hash` stored verbatim. -/
def MerkleTree.new (H : String → Nat) (depth : Nat) (root_hash : Nat) : MerkleTree :=
  { depth := depth
    root_hash := root_hash
    data := List.replicate (2 ^ depth) ""
    tree := (List.range (depth + 1)).map fun d => initLevel H depth (depth - d)
    index := 0 }

/-- The `while i % 2 == 1` propagation loop of `MerkleTree::add_data`:
halve `i`, decrement `d`, recompute `tree[d][i]` from its two children.
In the Rust code `d` is a `usize` decremented on each pass; on every reachable
call `i < 2^d`, so at `d = 0` the index `i` is `0` (even) and the loop exits —
the guard and the `d = 0` base case agree there (an odd `i` at `d = 0` would
underflow in Rust and is unreachable). -/
def propagate (H : String → Nat) : List (List Nat) → Nat → Nat → List (List Nat)
  | tree, _, 0 => tree
  | tree, i, d' + 1 =>
    if i % 2 = 1 then
      propagate H
        (setNode tree d' (i / 2)
          (combine H (nodeAt tree (d' + 1) (2 * (i / 2)))
            (nodeAt tree (d' + 1) (2 * (i / 2) + 1))))
        (i / 2) d'
    else tree

/-- `MerkleTree::add_data`: reject when `index == 2^depth`; otherwise store the
value, set the leaf digest, run the odd-index propagation loop, and increment
`index`. -/
def MerkleTree.add_data (H : String → Nat) (mt : MerkleTree) (v : String) : MerkleTree :=
  if mt.index = 2 ^ mt.depth then mt
  else
    { mt with
      data := mt.data.set mt.index v
      tree := propagate H (setNode mt.tree mt.depth mt.index (H v)) mt.index mt.depth
      index := mt.index + 1 }

/-- The `for d in (1..depth+1).rev()` loop of `MerkleTree::generate_proof`,
producing the entries for levels `1..=d` in level order (the entry for level
`d` is built from the current path index `i`, the shallower entries from
`i / 2`).  Entry at level `d`: sibling `(tree[d][i+1], true)` when `i` is
even, `(tree[d][i-1], false)` when `i` is odd. -/
def siblingChain (tree : List (List Nat)) : Nat → Nat → List (Nat × Bool)
  | _, 0 => []
  | i, d + 1 =>
    siblingChain tree (i / 2) d ++
      [if i % 2 = 0 then (nodeAt tree (d + 1) (i + 1), true)
       else (nodeAt tree (d + 1) (i - 1), false)]

/-- `MerkleTree::generate_proof`: empty vector when `index >= self.index`
(the `IndexNotYetAppended` case), otherwise `proof[0] = (self.root_hash, true)`
and `proof[d]` for `d in 1..=depth` the sibling entries.  The Rust code
pre-fills the vector with defaults and then overwrites every slot; the result
is the same list. -/
def MerkleTree.generate_proof (mt : MerkleTree) (index : Nat) : List (Nat × Bool) :=
  if index ≥ mt.index then []
  else (mt.root_hash, true) :: siblingChain mt.tree index mt.depth

/-- The hash-folding loop of `MerkleTree::verify`, processing `proof[d]` for
`d` from `depth` down to `1`.  `none` models the out-of-bounds panic of
`proof[d]` on a too-short proof. -/
def verifyFrom (H : String → Nat) (proof : List (Nat × Bool)) : Nat → Nat → Option Nat
  | hash, 0 => some hash
  | hash, d + 1 =>
    match proof.get? (d + 1) with
    | none => none
    | some e =>
      verifyFrom H proof (if e.2 then combine H hash e.1 else combine H e.1 hash) d

/-- `MerkleTree::verify`: fold the proof from the leaf hash of `data` up,
then compare with `proof[0].0`.  `none` models a panic on a proof shorter
than `depth + 1`. -/
def MerkleTree.verify (H : String → Nat) (mt : MerkleTree) (data : String)
    (proof : List (Nat × Bool)) : Option Bool :=
  match verifyFrom H proof (H data) mt.depth with
  | none => none
  | some h =>
    match proof.get? 0 with
    | none => none
    | some e => some (h == e.1)

/-- Appending a whole sequence of values in order. -/
def appendAll (H : String → Nat) (mt : MerkleTree) (vs : List String) : MerkleTree :=
  vs.foldl (MerkleTree.add_data H) mt

/-- The reachable state: construction followed by in-order appends. -/
def mkTree (H : String → Nat) (depth root_hash : Nat) (vs : List String) : MerkleTree :=
  appendAll H (MerkleTree.new H depth root_hash) vs

/-- Reference Merkle root, written from the spec: the root of the
height-`h` subtree whose leaves are positions `base..base + 2^h`, computed
recursively with each parent `Hash(concat(left, right))` over the leaf
digests given by `leafOf`. -/
def refRoot (H : String → Nat) (leafOf : Nat → Nat) : Nat → Nat → Nat
  | 0, base => leafOf base
  | h + 1, base => combine H (refRoot H leafOf h base) (refRoot H leafOf h (base + 2 ^ h))

/-- Digest of a height-`h` all-placeholder subtree (what construction puts at
every node of height `h`). -/
def zeros (H : String → Nat) : Nat → Nat
  | 0 => H ""
  | h + 1 => combine H (zeros H h) (zeros H h)

/-- Leaf digest function of an append sequence. -/
def leafHash (H : String → Nat) (vs : List String) (i : Nat) : Nat :=
  H (vs.getD i "")

/-- Value of node `(d, j)` of a depth-`depth` tree after `k` in-order appends
of `vs`: the reference subtree root once the subtree below `(d, j)` is
completely appended, the untouched all-placeholder digest otherwise. -/
def nodeVal (H : String → Nat) (depth : Nat) (vs : List String) (k d j : Nat) : Nat :=
  if (j + 1) * 2 ^ (depth - d) ≤ k then
    refRoot H (leafHash H vs) (depth - d) (j * 2 ^ (depth - d))
  else zeros H (depth - d)

/-- A concrete digest function used to instantiate witnesses: deterministic
and pure, as the design requires of the collaborator. -/
def lenHash (s : String) : Nat := s.length

/-! ### Shape and access lemmas -/

/-- Well-formed level arrays: `depth + 1` levels, level `d` of size `2^d`. -/
def TreeShape (t : List (List Nat)) (depth : Nat) : Prop :=
  t.length = depth + 1 ∧ ∀ d, d ≤ depth → (t.getD d []).length = 2 ^ d

lemma getD_set_row (t : List (List Nat)) (d : Nat) (r : List Nat) :
    (t.set d r).getD d [] = if d < t.length then r else [] := by
  by_cases h : d < t.length
  · simp [List.getD_eq_getElem?_getD, List.getElem?_set_self', List.getElem?_eq_getElem, h]
  · have h' : t.length ≤ d := Nat.le_of_not_lt h
    simp [List.getD_eq_getElem?_getD, List.getElem?_eq_none, h', h]

lemma getD_set_row_ne (t : List (List Nat)) (d d' : Nat) (r : List Nat) (h : d ≠ d') :
    (t.set d r).getD d' [] = t.getD d' [] := by
  simp [List.getD_eq_getElem?_getD, List.getElem?_set_ne h]

lemma nodeAt_setNode_ne (t : List (List Nat)) (d i v d' i' : Nat)
    (h : d ≠ d' ∨ i ≠ i') : nodeAt (setNode t d i v) d' i' = nodeAt t d' i' := by
  unfold nodeAt setNode
  by_cases hd : d = d'
  · subst hd
    have hi : i ≠ i' := h.resolve_left (by simp)
    rw [getD_set_row]
    by_cases hl : d < t.length
    · simp only [hl, if_pos]
      simp [List.getD_eq_getElem?_getD, List.getElem?_set_ne hi]
    · have h' : t.length ≤ d := Nat.le_of_not_lt hl
      simp [hl, List.getD_eq_getElem?_getD, List.getElem?_eq_none h']
  · rw [getD_set_row_ne _ _ _ _ hd]

lemma nodeAt_setNode_self (t : List (List Nat)) (d i v : Nat)
    (hd : d < t.length) (hi : i < (t.getD d []).length) :
    nodeAt (setNode t d i v) d i = v := by
  unfold nodeAt setNode
  rw [getD_set_row, if_pos hd]
  have hi' : i < (t[d]?.getD []).length := by
    simpa [List.getD_eq_getElem?_getD] using hi
  simp [List.getD_eq_getElem?_getD, List.getElem?_set_self hi']

lemma treeShape_setNode (t : List (List Nat)) (depth d i v : Nat)
    (hs : TreeShape t depth) : TreeShape (setNode t d i v) depth := by
  obtain ⟨hlen, hrow⟩ := hs
  refine ⟨by simpa [setNode] using hlen, fun d' hd' => ?_⟩
  by_cases h : d = d'
  · subst h
    by_cases hl : d < t.length
    · rw [setNode, getD_set_row, if_pos hl]
      simpa using hrow d hd'
    · omega
  · rw [setNode, getD_set_row_ne _ _ _ _ h]
    exact hrow d' hd'

/-! ### Construction characterization -/

lemma length_parentLevel (H : String → Nat) (c : List Nat) (d : Nat) :
    (parentLevel H c d).length = 2 ^ d := by simp [parentLevel]

lemma getD_parentLevel (H : String → Nat) (c : List Nat) (d j : Nat) (hj : j < 2 ^ d) :
    (parentLevel H c d).getD j 0 = combine H (c.getD (2 * j) 0) (c.getD (2 * j + 1) 0) := by
  simp [parentLevel, List.getD_eq_getElem?_getD, List.getElem?_range hj]

lemma length_initLevel (H : String → Nat) (depth : Nat) :
    ∀ h, (initLevel H depth h).length = 2 ^ (depth - h)
  | 0 => by simp [initLevel]
  | h + 1 => by simp [initLevel, length_parentLevel]

lemma initLevel_val (H : String → Nat) (depth : Nat) :
    ∀ h j, h ≤ depth → j < 2 ^ (depth - h) →
      (initLevel H depth h).getD j 0 = zeros H h
  | 0, j, _, hj => by
    have hj' : j < 2 ^ depth := by simpa using hj
    simp [initLevel, zeros, List.getD_eq_getElem?_getD, List.getElem?_replicate_of_lt hj']
  | h + 1, j, hh, hj => by
    rw [initLevel, getD_parentLevel H _ _ j hj]
    have hsub : depth - h = (depth - (h + 1)) + 1 := by omega
    have hpow : 2 ^ (depth - h) = 2 * 2 ^ (depth - (h + 1)) := by
      rw [hsub, Nat.pow_succ]; ring
    have h2j : 2 * j < 2 ^ (depth - h) := by omega
    have h2j1 : 2 * j + 1 < 2 ^ (depth - h) := by omega
    rw [initLevel_val H depth h (2 * j) (by omega) h2j,
      initLevel_val H depth h (2 * j + 1) (by omega) h2j1]
    rfl

lemma new_tree_shape (H : String → Nat) (depth r : Nat) :
    TreeShape (MerkleTree.new H depth r).tree depth := by
  constructor
  · simp [MerkleTree.new]
  · intro d hd
    have hlt : d < depth + 1 := by omega
    have : ((List.range (depth + 1)).map fun d => initLevel H depth (depth - d)).getD d []
        = initLevel H depth (depth - d) := by
      simp [List.getD_eq_getElem?_getD, List.getElem?_range hlt]
    rw [MerkleTree.new, this, length_initLevel]
    congr 1
    omega

lemma new_nodeAt (H : String → Nat) (depth r d j : Nat) (hd : d ≤ depth) (hj : j < 2 ^ d) :
    nodeAt (MerkleTree.new H depth r).tree d j = zeros H (depth - d) := by
  have hlt : d < depth + 1 := by omega
  have hrow : ((List.range (depth + 1)).map fun d => initLevel H depth (depth - d)).getD d []
      = initLevel H depth (depth - d) := by
    simp [List.getD_eq_getElem?_getD, List.getElem?_range hlt]
  rw [nodeAt, MerkleTree.new, hrow]
  exact initLevel_val H depth (depth - d) j (by omega) (by rwa [Nat.sub_sub_self hd])

/-! ### Stability of node values under extending the append sequence -/

lemma refRoot_append (H : String → Nat) (vs : List String) (v : String) :
    ∀ h base, base + 2 ^ h ≤ vs.length →
      refRoot H (leafHash H (vs ++ [v])) h base = refRoot H (leafHash H vs) h base
  | 0, base, hb => by
    have hlt : base < vs.length := by simpa using hb
    simp [refRoot, leafHash, List.getD_eq_getElem?_getD, List.getElem?_append_left hlt]
  | h + 1, base, hb => by
    have hpow : 2 ^ (h + 1) = 2 * 2 ^ h := by rw [Nat.pow_succ]; ring
    rw [refRoot, refRoot, refRoot_append H vs v h base (by omega),
      refRoot_append H vs v h (base + 2 ^ h) (by omega)]

lemma nodeVal_append_of_ne (H : String → Nat) (depth : Nat) (vs : List String) (v : String)
    (k d j : Nat) (hk : k ≤ vs.length) (hne : (j + 1) * 2 ^ (depth - d) ≠ k + 1) :
    nodeVal H depth (vs ++ [v]) (k + 1) d j = nodeVal H depth vs k d j := by
  unfold nodeVal
  have hmul : (j + 1) * 2 ^ (depth - d) = j * 2 ^ (depth - d) + 2 ^ (depth - d) :=
    Nat.succ_mul j _
  by_cases hc : (j + 1) * 2 ^ (depth - d) ≤ k
  · rw [if_pos hc, if_pos (by omega)]
    exact refRoot_append H vs v (depth - d) (j * 2 ^ (depth - d)) (by omega)
  · rw [if_neg hc, if_neg (by omega)]

lemma nodeVal_append_stable (H : String → Nat) (depth : Nat) (vs : List String) (v : String)
    (k d j : Nat) (hk : k ≤ vs.length) :
    nodeVal H depth (vs ++ [v]) k d j = nodeVal H depth vs k d j := by
  unfold nodeVal
  have hmul : (j + 1) * 2 ^ (depth - d) = j * 2 ^ (depth - d) + 2 ^ (depth - d) :=
    Nat.succ_mul j _
  by_cases hc : (j + 1) * 2 ^ (depth - d) ≤ k
  · rw [if_pos hc, if_pos hc]
    exact refRoot_append H vs v (depth - d) (j * 2 ^ (depth - d)) (by omega)
  · rw [if_neg hc, if_neg hc]

/-- When the loop exits on an even path index, no node strictly above the
current level has just become complete. -/
lemma exit_ne (depth dcur d' i j k : Nat) (hlt : d' < dcur) (hdc : dcur ≤ depth)
    (heq : k + 1 = (i + 1) * 2 ^ (depth - dcur)) (heven : i % 2 ≠ 1) :
    (j + 1) * 2 ^ (depth - d') ≠ k + 1 := by
  intro hc
  have hm : depth - d' = (dcur - d') + (depth - dcur) := by omega
  rw [hm, pow_add, heq, ← Nat.mul_assoc] at hc
  have hcc : (j + 1) * 2 ^ (dcur - d') = i + 1 :=
    Nat.eq_of_mul_eq_mul_right (Nat.two_pow_pos _) hc
  have h2 : 2 ^ (dcur - d') = 2 * 2 ^ (dcur - d' - 1) := by
    rw [← pow_succ']
    congr 1
    omega
  rw [h2] at hcc
  have hdvd : 2 ∣ i + 1 := ⟨(j + 1) * 2 ^ (dcur - d' - 1), by rw [← hcc]; ring⟩
  omega

/-! ### Characterization of the propagation loop -/

lemma propagate_char (H : String → Nat) (depth : Nat) (vs : List String) (v : String)
    (k : Nat) (hkvs : k = vs.length) :
    ∀ d i t, d ≤ depth → i < 2 ^ d →
      k + 1 = (i + 1) * 2 ^ (depth - d) →
      TreeShape t depth →
      (∀ d' j, d' ≤ depth → j < 2 ^ d' →
        nodeAt t d' j = if d ≤ d' then nodeVal H depth (vs ++ [v]) (k + 1) d' j
          else nodeVal H depth vs k d' j) →
      TreeShape (propagate H t i d) depth ∧
      ∀ d' j, d' ≤ depth → j < 2 ^ d' →
        nodeAt (propagate H t i d) d' j = nodeVal H depth (vs ++ [v]) (k + 1) d' j := by
  intro d
  induction d with
  | zero =>
    intro i t hd hi heq hshape hchar
    have hi0 : i = 0 := by omega
    subst hi0
    rw [propagate]
    refine ⟨hshape, fun d' j hd' hj => ?_⟩
    have h := hchar d' j hd' hj
    rwa [if_pos (Nat.zero_le d')] at h
  | succ d'' ih =>
    intro i t hd hi heq hshape hchar
    rw [propagate]
    by_cases hodd : i % 2 = 1
    · rw [if_pos hodd]
      have hs : depth - d'' = (depth - (d'' + 1)) + 1 := by omega
      have hieq : i = 2 * (i / 2) + 1 := by omega
      have hpow2 : 2 ^ (d'' + 1) = 2 * 2 ^ d'' := by rw [Nat.pow_succ]; ring
      have hi'lt : i / 2 < 2 ^ d'' := by omega
      have heq' : k + 1 = (i / 2 + 1) * 2 ^ (depth - d'') := by
        rw [hs, Nat.pow_succ]
        have hmul : (i / 2 + 1) * (2 ^ (depth - (d'' + 1)) * 2)
            = (2 * (i / 2) + 1 + 1) * 2 ^ (depth - (d'' + 1)) := by ring
        rw [hmul, ← hieq]
        exact heq
      have hchild_l : 2 * (i / 2) < 2 ^ (d'' + 1) := by omega
      have hchild_r : 2 * (i / 2) + 1 < 2 ^ (d'' + 1) := by omega
      have hvl : nodeAt t (d'' + 1) (2 * (i / 2))
          = nodeVal H depth (vs ++ [v]) (k + 1) (d'' + 1) (2 * (i / 2)) := by
        have h := hchar (d'' + 1) (2 * (i / 2)) hd hchild_l
        rwa [if_pos (le_refl _)] at h
      have hvr : nodeAt t (d'' + 1) (2 * (i / 2) + 1)
          = nodeVal H depth (vs ++ [v]) (k + 1) (d'' + 1) (2 * (i / 2) + 1) := by
        have h := hchar (d'' + 1) (2 * (i / 2) + 1) hd hchild_r
        rwa [if_pos (le_refl _)] at h
      -- the recomputed parent is the completed reference subtree root
      have hcompr : (2 * (i / 2) + 1 + 1) * 2 ^ (depth - (d'' + 1)) = k + 1 := by
        rw [← hieq]
        exact heq.symm
      have hcompl : (2 * (i / 2) + 1) * 2 ^ (depth - (d'' + 1)) ≤ k + 1 := by
        rw [← hcompr]
        exact Nat.mul_le_mul_right _ (by omega)
      have hsetval :
          combine H (nodeAt t (d'' + 1) (2 * (i / 2))) (nodeAt t (d'' + 1) (2 * (i / 2) + 1))
            = nodeVal H depth (vs ++ [v]) (k + 1) d'' (i / 2) := by
        rw [hvl, hvr]
        unfold nodeVal
        rw [if_pos (le_of_eq hcompr), if_pos hcompl, if_pos (le_of_eq heq'.symm)]
        rw [hs, refRoot]
        congr 1
        · congr 1
          rw [Nat.pow_succ]
          ring
        · congr 1
          rw [Nat.pow_succ]
          ring
      have hlen : d'' < t.length := by
        have := hshape.1
        omega
      have hrowlen : i / 2 < (t.getD d'' []).length := by
        rw [hshape.2 d'' (by omega)]
        exact hi'lt
      have hshape' : TreeShape (setNode t d'' (i / 2)
          (combine H (nodeAt t (d'' + 1) (2 * (i / 2)))
            (nodeAt t (d'' + 1) (2 * (i / 2) + 1)))) depth :=
        treeShape_setNode t depth d'' (i / 2) _ hshape
      have hchar' : ∀ d' j, d' ≤ depth → j < 2 ^ d' →
          nodeAt (setNode t d'' (i / 2)
            (combine H (nodeAt t (d'' + 1) (2 * (i / 2)))
              (nodeAt t (d'' + 1) (2 * (i / 2) + 1)))) d' j
            = if d'' ≤ d' then nodeVal H depth (vs ++ [v]) (k + 1) d' j
              else nodeVal H depth vs k d' j := by
        intro d' j hd' hj
        by_cases hdd : d' = d''
        · subst hdd
          by_cases hjj : j = i / 2
          · subst hjj
            rw [nodeAt_setNode_self t d' (i / 2) _ hlen hrowlen, hsetval,
              if_pos (le_refl d')]
          · rw [nodeAt_setNode_ne t d' (i / 2) _ d' j (Or.inr (Ne.symm hjj)),
              if_pos (le_refl d')]
            have h := hchar d' j hd' hj
            rw [if_neg (by omega)] at h
            rw [h]
            refine (nodeVal_append_of_ne H depth vs v k d' j (le_of_eq hkvs) ?_).symm
            intro hc
            rw [heq'] at hc
            exact hjj (Nat.eq_of_mul_eq_mul_right (Nat.two_pow_pos _) hc |> fun e => by omega)
        · rw [nodeAt_setNode_ne t d'' (i / 2) _ d' j (Or.inl (Ne.symm hdd))]
          have h := hchar d' j hd' hj
          by_cases hge : d'' + 1 ≤ d'
          · rw [if_pos hge] at h
            rw [h, if_pos (by omega)]
          · rw [if_neg hge] at h
            rw [h, if_neg (by omega)]
      exact ih (i / 2) _ (by omega) hi'lt heq' hshape' hchar'
    · rw [if_neg hodd]
      refine ⟨hshape, fun d' j hd' hj => ?_⟩
      have h := hchar d' j hd' hj
      by_cases hge : d'' + 1 ≤ d'
      · rwa [if_pos hge] at h
      · rw [if_neg hge] at h
        rw [h]
        exact (nodeVal_append_of_ne H depth vs v k d' j (le_of_eq hkvs)
          (exit_ne depth (d'' + 1) d' i j k (by omega) hd heq hodd)).symm

/-! ### The master invariant of reachable states -/

/-- Number of leaves actually stored after attempting to append `vs` in
order (appends past capacity are rejected). -/
def fillCount (depth : Nat) (vs : List String) : Nat := min vs.length (2 ^ depth)

lemma appendAll_concat (H : String → Nat) (m : MerkleTree) (vs : List String) (v : String) :
    appendAll H m (vs ++ [v]) = (appendAll H m vs).add_data H v := by
  simp [appendAll]

lemma mkTree_inv (H : String → Nat) (depth r : Nat) (vs : List String) :
    (mkTree H depth r vs).depth = depth ∧
    (mkTree H depth r vs).root_hash = r ∧
    (mkTree H depth r vs).index = fillCount depth vs ∧
    (mkTree H depth r vs).data.length = 2 ^ depth ∧
    (∀ i, i < 2 ^ depth →
      (mkTree H depth r vs).data.getD i "" =
        if i < fillCount depth vs then vs.getD i "" else "") ∧
    TreeShape (mkTree H depth r vs).tree depth ∧
    ∀ d j, d ≤ depth → j < 2 ^ d →
      nodeAt (mkTree H depth r vs).tree d j = nodeVal H depth vs (fillCount depth vs) d j := by
  induction vs using List.reverseRecOn with
  | nil =>
    refine ⟨rfl, rfl, by simp [mkTree, appendAll, MerkleTree.new, fillCount],
      by simp [mkTree, appendAll, MerkleTree.new], ?_, new_tree_shape H depth r,
      fun d j hd hj => ?_⟩
    · intro i hi
      simp [mkTree, appendAll, MerkleTree.new, fillCount,
        List.getD_eq_getElem?_getD, List.getElem?_replicate_of_lt hi]
    · show nodeAt (MerkleTree.new H depth r).tree d j = _
      rw [new_nodeAt H depth r d j hd hj]
      unfold nodeVal
      rw [if_neg (by simp [fillCount])]
  | append_singleton vs v ih =>
    obtain ⟨ihdepth, ihroot, ihindex, ihdlen, ihdata, ihshape, ihnode⟩ := ih
    have hstep : mkTree H depth r (vs ++ [v]) = (mkTree H depth r vs).add_data H v :=
      appendAll_concat H (MerkleTree.new H depth r) vs v
    rw [hstep]
    by_cases hfull : 2 ^ depth ≤ vs.length
    · -- the tree is already full: `add_data` is rejected, nothing changes
      have hk : fillCount depth vs = 2 ^ depth := by unfold fillCount; omega
      have hk' : fillCount depth (vs ++ [v]) = 2 ^ depth := by
        unfold fillCount
        simp only [List.length_append, List.length_singleton]
        omega
      have hreject : (mkTree H depth r vs).add_data H v = mkTree H depth r vs := by
        rw [MerkleTree.add_data, if_pos (by rw [ihindex, ihdepth, hk])]
      rw [hreject]
      refine ⟨ihdepth, ihroot, by rw [ihindex, hk, hk'], ihdlen, ?_, ihshape, ?_⟩
      · intro i hi
        rw [ihdata i hi, hk, hk']
        by_cases hik : i < 2 ^ depth
        · rw [if_pos hik, if_pos hik, List.getD_eq_getElem?_getD,
            List.getD_eq_getElem?_getD, List.getElem?_append_left (by omega)]
        · rw [if_neg hik, if_neg hik]
      · intro d j hd hj
        rw [ihnode d j hd hj, hk, hk']
        exact (nodeVal_append_stable H depth vs v (2 ^ depth) d j hfull).symm
    · -- room left: `add_data` stores at position `fillCount depth vs = vs.length`
      have hklen : fillCount depth vs = vs.length := by unfold fillCount; omega
      have hk' : fillCount depth (vs ++ [v]) = vs.length + 1 := by
        unfold fillCount
        simp only [List.length_append, List.length_singleton]
        omega
      have hklt : vs.length < 2 ^ depth := by omega
      have hproceed : (mkTree H depth r vs).index ≠ 2 ^ (mkTree H depth r vs).depth := by
        rw [ihindex, ihdepth, hklen]; omega
      rw [MerkleTree.add_data, if_neg hproceed, ihindex, ihdepth, hklen]
      have hshape0 : TreeShape (setNode (mkTree H depth r vs).tree depth vs.length (H v)) depth :=
        treeShape_setNode _ depth _ _ _ ihshape
      have hchar0 : ∀ d' j, d' ≤ depth → j < 2 ^ d' →
          nodeAt (setNode (mkTree H depth r vs).tree depth vs.length (H v)) d' j
            = if depth ≤ d' then nodeVal H depth (vs ++ [v]) (vs.length + 1) d' j
              else nodeVal H depth vs vs.length d' j := by
        intro d' j hd' hj
        by_cases hdd : d' = depth
        · subst hdd
          rw [if_pos (le_refl d')]
          by_cases hjj : j = vs.length
          · subst hjj
            rw [nodeAt_setNode_self _ _ _ _ (by rw [ihshape.1]; omega)
              (by rw [ihshape.2 d' (le_refl d')]; exact hklt)]
            unfold nodeVal
            rw [if_pos (by simp)]
            simp only [Nat.sub_self, pow_zero, Nat.mul_one, refRoot, leafHash]
            rw [List.getD_eq_getElem?_getD, List.getElem?_concat_length]
            rfl
          · rw [nodeAt_setNode_ne _ _ _ _ _ _ (Or.inr (Ne.symm hjj)),
              ihnode d' j (le_refl d') hj, hklen]
            refine (nodeVal_append_of_ne H d' vs v vs.length d' j (le_refl _) ?_).symm
            simpa using hjj
        · have hdlt : d' < depth := by omega
          rw [nodeAt_setNode_ne _ _ _ _ _ _ (Or.inl (by omega)),
            ihnode d' j hd' hj, hklen, if_neg (by omega)]
      obtain ⟨hshape1, hnode1⟩ :=
        propagate_char H depth vs v vs.length rfl depth vs.length
          (setNode (mkTree H depth r vs).tree depth vs.length (H v))
          (le_refl depth) hklt (by simp) hshape0 hchar0
      have hidx2 : vs.length + 1 = fillCount depth (vs ++ [v]) := hk'.symm
      have hdlen2 : ((mkTree H depth r vs).data.set vs.length v).length = 2 ^ depth := by
        rw [List.length_set]
        exact ihdlen
      refine ⟨rfl, ihroot, hidx2, hdlen2, ?_, hshape1, ?_⟩
      · intro i hi
        show ((mkTree H depth r vs).data.set vs.length v).getD i "" = _
        simp only [List.getD_eq_getElem?_getD]
        by_cases hik : i = vs.length
        · subst hik
          rw [List.getElem?_set_self (by rw [ihdlen]; omega), hk',
            if_pos (by omega)]
          simp [List.getElem?_concat_length]
        · rw [List.getElem?_set_ne (by omega)]
          have h := ihdata i hi
          rw [List.getD_eq_getElem?_getD] at h
          rw [h, hklen, hk']
          by_cases hlt : i < vs.length
          · rw [if_pos hlt, if_pos (by omega), List.getD_eq_getElem?_getD,
              List.getElem?_append_left hlt]
          · rw [if_neg hlt, if_neg (by omega)]
      · intro d j hd hj
        show nodeAt (propagate H
          (setNode (mkTree H depth r vs).tree depth vs.length (H v)) vs.length depth) d j = _
        rw [hnode1 d j hd hj, hk']

/-! ### Structure of generated proofs -/

lemma siblingChain_length (t : List (List Nat)) : ∀ D i, (siblingChain t i D).length = D := by
  intro D
  induction D with
  | zero => intro i; rfl
  | succ D ih =>
    intro i
    rw [siblingChain]
    simp [ih]

lemma siblingChain_get? (t : List (List Nat)) :
    ∀ D i p, p < D →
      (siblingChain t i D).get? p = some (
        if (i / 2 ^ (D - (p + 1))) % 2 = 0 then
          (nodeAt t (p + 1) (i / 2 ^ (D - (p + 1)) + 1), true)
        else (nodeAt t (p + 1) (i / 2 ^ (D - (p + 1)) - 1), false)) := by
  intro D
  induction D with
  | zero => intro i p hp; omega
  | succ D ih =>
    intro i p hp
    rw [siblingChain, List.get?_eq_getElem?]
    by_cases hpD : p = D
    · subst hpD
      have hcat := List.getElem?_concat_length (siblingChain t (i / 2) p)
        (if i % 2 = 0 then (nodeAt t (p + 1) (i + 1), true)
         else (nodeAt t (p + 1) (i - 1), false))
      rw [siblingChain_length] at hcat
      rw [hcat]
      simp
    · have hpD' : p < D := by omega
      rw [List.getElem?_append_left (by rw [siblingChain_length]; omega)]
      have h := ih (i / 2) p hpD'
      rw [List.get?_eq_getElem?] at h
      rw [h]
      have hdiv : i / 2 / 2 ^ (D - (p + 1)) = i / 2 ^ (D + 1 - (p + 1)) := by
        rw [Nat.div_div_eq_div_mul]
        congr 1
        rw [← pow_succ']
        congr 1
        omega
      rw [hdiv]

/-! ### Verification recomputes the reference root along the proof chain -/

lemma refRoot_parent_even (H : String → Nat) (L : Nat → Nat) (m j : Nat) (hj : j % 2 = 0) :
    combine H (refRoot H L m (j * 2 ^ m)) (refRoot H L m ((j + 1) * 2 ^ m))
      = refRoot H L (m + 1) (j / 2 * 2 ^ (m + 1)) := by
  rw [refRoot]
  have h2 : j = 2 * (j / 2) := by omega
  congr 2
  · rw [Nat.pow_succ]
    calc j * 2 ^ m = 2 * (j / 2) * 2 ^ m := by rw [← h2]
    _ = j / 2 * (2 ^ m * 2) := by ring
  · rw [Nat.pow_succ]
    calc (j + 1) * 2 ^ m = 2 * (j / 2) * 2 ^ m + 2 ^ m := by rw [← h2]; ring
    _ = j / 2 * (2 ^ m * 2) + 2 ^ m := by ring

lemma refRoot_parent_odd (H : String → Nat) (L : Nat → Nat) (m j : Nat) (hj : j % 2 = 1) :
    combine H (refRoot H L m ((j - 1) * 2 ^ m)) (refRoot H L m (j * 2 ^ m))
      = refRoot H L (m + 1) (j / 2 * 2 ^ (m + 1)) := by
  rw [refRoot]
  have h2 : j = 2 * (j / 2) + 1 := by omega
  have h3 : j - 1 = 2 * (j / 2) := by omega
  congr 2
  · rw [Nat.pow_succ, h3]
    ring
  · rw [Nat.pow_succ]
    calc j * 2 ^ m = (2 * (j / 2) + 1) * 2 ^ m := by rw [← h2]
    _ = j / 2 * (2 ^ m * 2) + 2 ^ m := by ring

lemma verifyFrom_chain (H : String → Nat) (depth : Nat) (L : Nat → Nat)
    (t : List (List Nat)) (r : Nat) (i0 : Nat) (hi0 : i0 < 2 ^ depth)
    (hnode : ∀ d j, d ≤ depth → j < 2 ^ d →
      nodeAt t d j = refRoot H L (depth - d) (j * 2 ^ (depth - d))) :
    ∀ d, d ≤ depth →
      verifyFrom H ((r, true) :: siblingChain t i0 depth)
        (refRoot H L (depth - d) (i0 / 2 ^ (depth - d) * 2 ^ (depth - d))) d
      = some (refRoot H L depth 0) := by
  intro d
  induction d with
  | zero =>
    intro _
    rw [verifyFrom]
    have h0 : i0 / 2 ^ depth = 0 := Nat.div_eq_of_lt hi0
    simp [h0]
  | succ d ih =>
    intro hd
    have hdD : d < depth := by omega
    have hm : depth - d = (depth - (d + 1)) + 1 := by omega
    have hpow : 2 ^ (depth - d) = 2 ^ (depth - (d + 1)) * 2 := by
      rw [hm, Nat.pow_succ]
    have hj1 : i0 / 2 ^ (depth - (d + 1)) < 2 ^ (d + 1) := by
      rw [Nat.div_lt_iff_lt_mul (Nat.two_pow_pos _)]
      calc i0 < 2 ^ depth := hi0
      _ = 2 ^ (d + 1) * 2 ^ (depth - (d + 1)) := by rw [← pow_add]; congr 1; omega
    have hhalf : i0 / 2 ^ (depth - (d + 1)) / 2 = i0 / 2 ^ (depth - d) := by
      rw [Nat.div_div_eq_div_mul, ← hpow]
    rw [verifyFrom, List.get?_cons_succ, siblingChain_get? t depth i0 d hdD]
    by_cases hpar : (i0 / 2 ^ (depth - (d + 1))) % 2 = 0
    · rw [if_pos hpar]
      have hsib : nodeAt t (d + 1) (i0 / 2 ^ (depth - (d + 1)) + 1)
          = refRoot H L (depth - (d + 1))
            ((i0 / 2 ^ (depth - (d + 1)) + 1) * 2 ^ (depth - (d + 1))) :=
        hnode (d + 1) _ hd (by omega)
      simp only []
      rw [hsib, refRoot_parent_even H L (depth - (d + 1)) (i0 / 2 ^ (depth - (d + 1))) hpar,
        hhalf, ← hm]
      exact ih (by omega)
    · rw [if_neg hpar]
      have hodd : (i0 / 2 ^ (depth - (d + 1))) % 2 = 1 := by omega
      have hsib : nodeAt t (d + 1) (i0 / 2 ^ (depth - (d + 1)) - 1)
          = refRoot H L (depth - (d + 1))
            ((i0 / 2 ^ (depth - (d + 1)) - 1) * 2 ^ (depth - (d + 1))) :=
        hnode (d + 1) _ hd (lt_of_le_of_lt (Nat.sub_le _ _) hj1)
      simp only []
      rw [hsib, refRoot_parent_odd H L (depth - (d + 1)) (i0 / 2 ^ (depth - (d + 1))) hodd,
        hhalf, ← hm]
      exact ih (by omega)

/-! ### Consequences of the invariant -/

/-- In a completely filled tree every stored digest is the reference root of
its subtree. -/
lemma mkTree_full_nodeAt (H : String → Nat) (depth r : Nat) (vs : List String)
    (hlen : vs.length = 2 ^ depth) (d j : Nat) (hd : d ≤ depth) (hj : j < 2 ^ d) :
    nodeAt (mkTree H depth r vs).tree d j
      = refRoot H (leafHash H vs) (depth - d) (j * 2 ^ (depth - d)) := by
  obtain ⟨-, -, -, -, -, -, hnode⟩ := mkTree_inv H depth r vs
  rw [hnode d j hd hj]
  have hfill : fillCount depth vs = 2 ^ depth := by unfold fillCount; omega
  unfold nodeVal
  rw [hfill, if_pos ?_]
  have hsplit : 2 ^ depth = 2 ^ d * 2 ^ (depth - d) := by
    rw [← pow_add]
    congr 1
    omega
  rw [hsplit]
  exact Nat.mul_le_mul_right _ (by omega)

lemma verifyFrom_isSome (H : String → Nat) (proof : List (Nat × Bool)) :
    ∀ d hash, d < proof.length → (verifyFrom H proof hash d).isSome = true := by
  intro d
  induction d with
  | zero => intro hash _; rfl
  | succ d ih =>
    intro hash hd
    rw [verifyFrom, List.get?_eq_getElem?, List.getElem?_eq_getElem hd]
    exact ih _ (by omega)

lemma add_data_agree (H : String → Nat) (m1 m2 : MerkleTree) (v : String)
    (h1 : m1.depth = m2.depth) (h2 : m1.data = m2.data) (h3 : m1.tree = m2.tree)
    (h4 : m1.index = m2.index) :
    (m1.add_data H v).depth = (m2.add_data H v).depth ∧
    (m1.add_data H v).data = (m2.add_data H v).data ∧
    (m1.add_data H v).tree = (m2.add_data H v).tree ∧
    (m1.add_data H v).index = (m2.add_data H v).index := by
  rw [MerkleTree.add_data, MerkleTree.add_data, h1, h2, h3, h4]
  by_cases hc : m2.index = 2 ^ m2.depth
  · rw [if_pos hc, if_pos hc]
    exact ⟨h1, h2, h3, h4⟩
  · rw [if_neg hc, if_neg hc]
    exact ⟨rfl, rfl, rfl, rfl⟩

lemma appendAll_agree (H : String → Nat) (vs : List String) :
    ∀ m1 m2 : MerkleTree, m1.depth = m2.depth → m1.data = m2.data → m1.tree = m2.tree →
      m1.index = m2.index →
      (appendAll H m1 vs).depth = (appendAll H m2 vs).depth ∧
      (appendAll H m1 vs).data = (appendAll H m2 vs).data ∧
      (appendAll H m1 vs).tree = (appendAll H m2 vs).tree ∧
      (appendAll H m1 vs).index = (appendAll H m2 vs).index := by
  induction vs with
  | nil => intro m1 m2 h1 h2 h3 h4; exact ⟨h1, h2, h3, h4⟩
  | cons v vs ih =>
    intro m1 m2 h1 h2 h3 h4
    have hcons : ∀ m : MerkleTree, appendAll H m (v :: vs) = appendAll H (m.add_data H v) vs := by
      intro m
      simp [appendAll]
    rw [hcons, hcons]
    obtain ⟨g1, g2, g3, g4⟩ := add_data_agree H m1 m2 v h1 h2 h3 h4
    exact ih _ _ g1 g2 g3 g4

/-! ### Claim C1: round-trip verification -/

/-- Claim C1 counterexample: the round trip is not unconditional.  With
`depth = 0`, declared root digest `0`, and the single value `"a"` appended,
`verify("a", generate_proof(0))` is `false`: `verify` compares against the
declared `root_hash` from construction, which here does not match the
recomputed digest. -/
theorem c1_counterexample :
    (mkTree lenHash 0 0 ["a"]).verify lenHash "a"
      ((mkTree lenHash 0 0 ["a"]).generate_proof 0) = some false := by
  decide

/-- Claim C1 (amended): for every digest function, every `depth ≥ 0` and every
in-order insertion sequence that exactly fills the tree (`length = 2^depth`),
if the declared root digest supplied at construction equals the reference
Merkle root of the appended values, then verifying each appended value against
the proof generated for its index returns `true`. -/
theorem c1_roundtrip_full (H : String → Nat) (depth : Nat) (vs : List String)
    (hlen : vs.length = 2 ^ depth) (i : Nat) (hi : i < 2 ^ depth) :
    (mkTree H depth (refRoot H (leafHash H vs) depth 0) vs).verify H (vs.getD i "")
      ((mkTree H depth (refRoot H (leafHash H vs) depth 0) vs).generate_proof i)
      = some true := by
  obtain ⟨hdep, hroot, hindex, -, -, -, -⟩ :=
    mkTree_inv H depth (refRoot H (leafHash H vs) depth 0) vs
  have hidx : i < (mkTree H depth (refRoot H (leafHash H vs) depth 0) vs).index := by
    rw [hindex]
    unfold fillCount
    omega
  rw [MerkleTree.generate_proof, if_neg (by omega), MerkleTree.verify, hdep, hroot]
  have hchain := verifyFrom_chain H depth (leafHash H vs)
    (mkTree H depth (refRoot H (leafHash H vs) depth 0) vs).tree
    (refRoot H (leafHash H vs) depth 0) i hi
    (fun d j hd hj =>
      mkTree_full_nodeAt H depth (refRoot H (leafHash H vs) depth 0) vs hlen d j hd hj)
    depth (le_refl depth)
  simp only [Nat.sub_self, pow_zero, Nat.div_one, Nat.mul_one, refRoot, leafHash] at hchain
  rw [hchain]
  simp

/-- Claim C1 witness: the amended round trip at `depth = 1`,
`vs = ["a", "b"]`, index `0`. -/
theorem c1_roundtrip_full_witness :
    (["a", "b"] : List String).length = 2 ^ 1 ∧ (0 : Nat) < 2 ^ 1 ∧
    (mkTree lenHash 1 (refRoot lenHash (leafHash lenHash ["a", "b"]) 1 0) ["a", "b"]).verify
      lenHash ((["a", "b"] : List String).getD 0 "")
      ((mkTree lenHash 1 (refRoot lenHash (leafHash lenHash ["a", "b"]) 1 0)
        ["a", "b"]).generate_proof 0) = some true :=
  ⟨rfl, by decide, c1_roundtrip_full lenHash 1 ["a", "b"] rfl 0 (by decide)⟩

/-! ### Claim C2: totality of verify -/

/-- Claim C2 counterexample: `verify` is not total.  On the empty proof (the
very proof `generate_proof` returns for an unappended index) it indexes
`proof[d]` out of bounds — a Rust panic, modelled by `none` — instead of
returning `false`. -/
theorem c2_counterexample :
    (MerkleTree.new lenHash 1 0).verify lenHash "a" [] = none := by
  decide

/-- Claim C2 (amended): `verify` returns a boolean — rather than panicking —
for every proof of length at least `depth + 1`; proofs shorter than
`depth + 1` (wrong length) make it panic with an out-of-bounds index. -/
theorem c2_verify_total (H : String → Nat) (mt : MerkleTree) (data : String)
    (proof : List (Nat × Bool)) (hlen : mt.depth + 1 ≤ proof.length) :
    (mt.verify H data proof).isSome = true := by
  rw [MerkleTree.verify]
  have h1 := verifyFrom_isSome H proof mt.depth (H data) (by omega)
  obtain ⟨h, hh⟩ := Option.isSome_iff_exists.mp h1
  rw [hh]
  have h0 : 0 < proof.length := by omega
  rw [List.get?_eq_getElem?, List.getElem?_eq_getElem h0]
  rfl

/-- Claim C2 witness: a depth-1 tree with a length-2 proof. -/
theorem c2_verify_total_witness :
    (MerkleTree.new lenHash 1 0).depth + 1 ≤ ([(0, true), (0, true)] : List (Nat × Bool)).length ∧
    ((MerkleTree.new lenHash 1 0).verify lenHash "a" [(0, true), (0, true)]).isSome = true :=
  ⟨by decide,
    c2_verify_total lenHash (MerkleTree.new lenHash 1 0) "a" [(0, true), (0, true)] (by decide)⟩

/-! ### Claim C3: structure of generated proofs -/

/-- Claim C3 counterexample: `proof[0]` carries the *declared* `root_hash`
from construction, not the digest stored at level 0 index 0.  At `depth = 0`
with declared root `0` and one appended value, the stored root digest is the
value hash, but the proof's element 0 is `(0, true)`. -/
theorem c3_counterexample :
    (mkTree lenHash 0 0 ["a"]).generate_proof 0
      ≠ [(nodeAt (mkTree lenHash 0 0 ["a"]).tree 0 0, true)] := by
  decide

/-- Claim C3 (amended): for `index < next_index`, `generate_proof(index)` has
exactly `depth + 1` elements; element 0 is the pair `(root_hash, true)` where
`root_hash` is the declared root digest stored at construction (not the
digest at level 0 index 0); and element `d` for `1 ≤ d ≤ depth` is the
sibling at level `d`: index `i+1` with flag `true` when the path index `i` at
level `d` is even, index `i-1` with flag `false` when it is odd. -/
theorem c3_proof_structure (mt : MerkleTree) (index : Nat) (hidx : index < mt.index) :
    (mt.generate_proof index).length = mt.depth + 1 ∧
    (mt.generate_proof index).get? 0 = some (mt.root_hash, true) ∧
    ∀ d, 1 ≤ d → d ≤ mt.depth →
      (mt.generate_proof index).get? d = some (
        if (index / 2 ^ (mt.depth - d)) % 2 = 0 then
          (nodeAt mt.tree d (index / 2 ^ (mt.depth - d) + 1), true)
        else (nodeAt mt.tree d (index / 2 ^ (mt.depth - d) - 1), false)) := by
  rw [MerkleTree.generate_proof, if_neg (by omega)]
  refine ⟨by simp [siblingChain_length], rfl, ?_⟩
  intro d hd1 hd2
  obtain ⟨p, rfl⟩ : ∃ p, d = p + 1 := ⟨d - 1, by omega⟩
  rw [List.get?_cons_succ, siblingChain_get? mt.tree mt.depth index p (by omega)]

/-- Claim C3 witness: proof length at a depth-1 tree with one append. -/
theorem c3_proof_structure_witness :
    0 < (mkTree lenHash 1 55 ["a"]).index ∧
    ((mkTree lenHash 1 55 ["a"]).generate_proof 0).length
      = (mkTree lenHash 1 55 ["a"]).depth + 1 :=
  ⟨by decide, (c3_proof_structure (mkTree lenHash 1 55 ["a"]) 0 (by decide)).1⟩

/-! ### Claim C4: root correctness after a full fill -/

/-- Claim C4: after exactly `capacity = 2^depth` in-order appends, the digest
stored at level 0 index 0 equals the reference Merkle root computed
recursively over the leaf digests, each parent being the hash of the
concatenation of its two children. -/
theorem c4_root_is_reference (H : String → Nat) (depth r : Nat) (vs : List String)
    (hlen : vs.length = 2 ^ depth) :
    nodeAt (mkTree H depth r vs).tree 0 0 = refRoot H (leafHash H vs) depth 0 := by
  have h := mkTree_full_nodeAt H depth r vs hlen 0 0 (Nat.zero_le depth) (by decide)
  simpa using h

/-- Claim C4 witness: depth 1, values `["a", "b"]`. -/
theorem c4_root_is_reference_witness :
    (["a", "b"] : List String).length = 2 ^ 1 ∧
    nodeAt (mkTree lenHash 1 7 ["a", "b"]).tree 0 0
      = refRoot lenHash (leafHash lenHash ["a", "b"]) 1 0 :=
  ⟨rfl, c4_root_is_reference lenHash 1 7 ["a", "b"] rfl⟩

/-! ### Claim C5: appending to a full tree is rejected -/

/-- Claim C5: when `next_index = capacity`, `add_data` rejects the append (the
code's `// error` early return) and leaves every field of the tree — leaf
store, level arrays, `index`, `depth` and the declared root digest —
unchanged. -/
theorem c5_append_full_rejected (H : String → Nat) (mt : MerkleTree) (v : String)
    (hfull : mt.index = 2 ^ mt.depth) : mt.add_data H v = mt := by
  rw [MerkleTree.add_data, if_pos hfull]

/-- Claim C5 witness: the full depth-0 tree. -/
theorem c5_append_full_rejected_witness :
    (mkTree lenHash 0 0 ["a"]).index = 2 ^ (mkTree lenHash 0 0 ["a"]).depth ∧
    (mkTree lenHash 0 0 ["a"]).add_data lenHash "b" = mkTree lenHash 0 0 ["a"] :=
  ⟨by decide, c5_append_full_rejected lenHash (mkTree lenHash 0 0 ["a"]) "b" (by decide)⟩

/-! ### Claim C6: proving an unappended index -/

/-- Claim C6: for `index ≥ next_index`, `generate_proof` rejects the request
(the code's `// error` early return) and returns the empty proof; being a
read-only operation it leaves the tree unchanged. -/
theorem c6_prove_unappended_empty (mt : MerkleTree) (index : Nat)
    (hidx : mt.index ≤ index) : mt.generate_proof index = [] := by
  rw [MerkleTree.generate_proof, if_pos hidx]

/-- Claim C6 witness: index 1 of a depth-1 tree holding one value. -/
theorem c6_prove_unappended_empty_witness :
    (mkTree lenHash 1 0 ["a"]).index ≤ 1 ∧
    (mkTree lenHash 1 0 ["a"]).generate_proof 1 = [] :=
  ⟨by decide, c6_prove_unappended_empty (mkTree lenHash 1 0 ["a"]) 1 (by decide)⟩

/-! ### Claim C7: placeholder leaves -/

/-- Claim C7: construction fills every leaf slot with the hash of the empty
string, and in every reachable state (construction plus any number of
in-order appends) the leaf digest at every position at or beyond `next_index`
still equals that placeholder hash. -/
theorem c7_placeholder_leaves (H : String → Nat) (depth r : Nat) (vs : List String) :
    (∀ i, i < 2 ^ depth → nodeAt (MerkleTree.new H depth r).tree depth i = H "") ∧
    ∀ i, (mkTree H depth r vs).index ≤ i → i < 2 ^ depth →
      nodeAt (mkTree H depth r vs).tree depth i = H "" := by
  constructor
  · intro i hi
    rw [new_nodeAt H depth r depth i (le_refl depth) hi, Nat.sub_self]
    rfl
  · intro i hge hi
    obtain ⟨-, -, hindex, -, -, -, hnode⟩ := mkTree_inv H depth r vs
    rw [hindex] at hge
    rw [hnode depth i (le_refl depth) hi]
    unfold nodeVal
    rw [Nat.sub_self, if_neg (by simp only [pow_zero, Nat.mul_one]; omega)]
    rfl

/-- Claim C7 witness: position 1 of a depth-1 tree with one append. -/
theorem c7_placeholder_leaves_witness :
    (1 : Nat) < 2 ^ 1 ∧ (mkTree lenHash 1 3 ["a"]).index ≤ 1 ∧
    nodeAt (MerkleTree.new lenHash 1 3).tree 1 1 = lenHash "" ∧
    nodeAt (mkTree lenHash 1 3 ["a"]).tree 1 1 = lenHash "" :=
  ⟨by decide, by decide, (c7_placeholder_leaves lenHash 1 3 ["a"]).1 1 (by decide),
    (c7_placeholder_leaves lenHash 1 3 ["a"]).2 1 (by decide) (by decide)⟩

/-! ### Claim C8: determinism -/

/-- Claim C8: two trees constructed with the same depth — regardless of the
declared root digest argument — and fed the same append sequence hold
identical digests at every `(level, index)` position. -/
theorem c8_determinism (H : String → Nat) (depth r1 r2 : Nat) (vs : List String) :
    ∀ d j, nodeAt (mkTree H depth r1 vs).tree d j = nodeAt (mkTree H depth r2 vs).tree d j := by
  intro d j
  have h := appendAll_agree H vs (MerkleTree.new H depth r1) (MerkleTree.new H depth r2)
    rfl rfl rfl rfl
  rw [mkTree, mkTree, h.2.2.1]

/-! ### Claim C9: verify reads only the depth field -/

/-- Claim C9: the result of `verify` depends only on the data, the proof, and
the tree's `depth` field — two trees of equal depth give identical results on
every input, whatever their level arrays, leaf store, cursor or declared
root. -/
theorem c9_verify_reads_only_depth (H : String → Nat) (m1 m2 : MerkleTree)
    (data : String) (proof : List (Nat × Bool)) (hdep : m1.depth = m2.depth) :
    m1.verify H data proof = m2.verify H data proof := by
  rw [MerkleTree.verify, MerkleTree.verify, hdep]

/-- Claim C9 witness: a filled tree and a fresh tree of the same depth agree. -/
theorem c9_verify_reads_only_depth_witness :
    (mkTree lenHash 1 0 ["a"]).depth = (MerkleTree.new lenHash 1 99).depth ∧
    (mkTree lenHash 1 0 ["a"]).verify lenHash "x" [(5, true), (6, false)]
      = (MerkleTree.new lenHash 1 99).verify lenHash "x" [(5, true), (6, false)] :=
  ⟨by decide, c9_verify_reads_only_depth lenHash (mkTree lenHash 1 0 ["a"])
    (MerkleTree.new lenHash 1 99) "x" [(5, true), (6, false)] (by decide)⟩

/-! ### Claim C10: frame property of append -/

/-- Claim C10: an append on a non-full reachable tree leaves `depth` and
`root_hash` unchanged, increments `index` by exactly one, changes the leaf
store only at position `next_index`, and changes a digest at `(d, j)` only
when `j` is the ancestor of `next_index` at level `d` and level `d` is the
leaf level or is reached by the odd-index propagation loop
(`2^(depth-d)` divides `next_index + 1`). -/
theorem c10_append_frame (H : String → Nat) (depth r : Nat) (vs : List String) (v : String)
    (hroom : (mkTree H depth r vs).index < 2 ^ depth) :
    ((mkTree H depth r vs).add_data H v).depth = (mkTree H depth r vs).depth ∧
    ((mkTree H depth r vs).add_data H v).root_hash = (mkTree H depth r vs).root_hash ∧
    ((mkTree H depth r vs).add_data H v).index = (mkTree H depth r vs).index + 1 ∧
    (∀ i, i ≠ (mkTree H depth r vs).index →
      ((mkTree H depth r vs).add_data H v).data.getD i ""
        = (mkTree H depth r vs).data.getD i "") ∧
    ((mkTree H depth r vs).add_data H v).data.getD (mkTree H depth r vs).index "" = v ∧
    ∀ d j, d ≤ depth → j < 2 ^ d →
      nodeAt ((mkTree H depth r vs).add_data H v).tree d j
        ≠ nodeAt (mkTree H depth r vs).tree d j →
      j = (mkTree H depth r vs).index / 2 ^ (depth - d) ∧
        (d = depth ∨ 2 ^ (depth - d) ∣ ((mkTree H depth r vs).index + 1)) := by
  have hconcat : (mkTree H depth r vs).add_data H v = mkTree H depth r (vs ++ [v]) :=
    (appendAll_concat H (MerkleTree.new H depth r) vs v).symm
  obtain ⟨hdep1, hroot1, hindex1, hdlen1, hdata1, -, hnode1⟩ := mkTree_inv H depth r vs
  obtain ⟨hdep2, hroot2, hindex2, hdlen2, hdata2, -, hnode2⟩ := mkTree_inv H depth r (vs ++ [v])
  have hklt : vs.length < 2 ^ depth := by
    rw [hindex1] at hroom
    unfold fillCount at hroom
    omega
  have hfill1 : fillCount depth vs = vs.length := by unfold fillCount; omega
  have hfill2 : fillCount depth (vs ++ [v]) = vs.length + 1 := by
    unfold fillCount
    simp only [List.length_append, List.length_singleton]
    omega
  have hidx : (mkTree H depth r vs).index = vs.length := by rw [hindex1, hfill1]
  rw [hconcat]
  refine ⟨by rw [hdep2, hdep1], by rw [hroot2, hroot1],
    by rw [hindex2, hfill2, hidx], ?_, ?_, ?_⟩
  · intro i hne
    rw [hidx] at hne
    by_cases hir : i < 2 ^ depth
    · rw [hdata2 i hir, hdata1 i hir, hfill1, hfill2]
      by_cases hlt : i < vs.length
      · rw [if_pos hlt, if_pos (by omega), List.getD_eq_getElem?_getD,
          List.getD_eq_getElem?_getD, List.getElem?_append_left hlt]
      · rw [if_neg hlt, if_neg (by omega)]
    · have e2 : (mkTree H depth r (vs ++ [v])).data.getD i "" = "" := by
        rw [List.getD_eq_getElem?_getD, List.getElem?_eq_none (by rw [hdlen2]; omega)]
        rfl
      have e1 : (mkTree H depth r vs).data.getD i "" = "" := by
        rw [List.getD_eq_getElem?_getD, List.getElem?_eq_none (by rw [hdlen1]; omega)]
        rfl
      rw [e1, e2]
  · rw [hidx, hdata2 vs.length hklt, hfill2, if_pos (by omega),
      List.getD_eq_getElem?_getD, List.getElem?_concat_length]
    rfl
  · intro d j hd hj hne
    rw [hnode2 d j hd hj, hnode1 d j hd hj, hfill1, hfill2] at hne
    have heq : (j + 1) * 2 ^ (depth - d) = vs.length + 1 := by
      by_contra hc
      exact hne (nodeVal_append_of_ne H depth vs v vs.length d j (le_refl _) hc)
    have hpos : 0 < 2 ^ (depth - d) := Nat.two_pow_pos _
    have hmul : (j + 1) * 2 ^ (depth - d) = j * 2 ^ (depth - d) + 2 ^ (depth - d) :=
      Nat.succ_mul j _
    constructor
    · rw [hidx]
      have hn : vs.length = 2 ^ (depth - d) - 1 + j * 2 ^ (depth - d) := by omega
      rw [hn, Nat.add_mul_div_right _ _ hpos, Nat.div_eq_of_lt (by omega)]
      omega
    · by_cases hdd : d = depth
      · exact Or.inl hdd
      · refine Or.inr ⟨j + 1, ?_⟩
        rw [hidx, ← heq]
        ring

/-- Claim C10 witness: appending to an empty depth-1 tree bumps the cursor. -/
theorem c10_append_frame_witness :
    (mkTree lenHash 1 7 []).index < 2 ^ 1 ∧
    ((mkTree lenHash 1 7 []).add_data lenHash "a").index = (mkTree lenHash 1 7 []).index + 1 :=
  ⟨by decide, (c10_append_frame lenHash 1 7 [] "a" (by decide)).2.2.1⟩
